import Mathlib

/-!
Verification of the MumuBot agent core against its specification.

Each Go function under scrutiny is shallowly embedded as a Lean definition:
machine floats (`float64`) are idealized as exact rationals (`ℚ`), Go `int64`
as `Int`, database tables as Lean lists in insertion order (`First` becomes
`List.find?`, `Create` appends), and wall-clock instants as rational second
counts.  Concurrency around the per-group thinking flag is embedded as a
small transition system whose events are the atomic (mutex-protected)
acquire/release sections of `Agent.think`.
-/

/- ==================== Ring buffer (internal/utils/ringbuffer.go) ==================== -/

/-- Embedding of `utils.RingBuffer[T]`.  The Go backing slice `data` (length
`cap`) is embedded as a total function `Nat → α`; `head`, `tail`, `count`,
`cap` are the same fields as in the source.  The `sync.RWMutex` only guards
the fields and has no sequential content. -/
structure RingBuffer (α : Type) where
  data : Nat → α
  head : Nat
  tail : Nat
  count : Nat
  cap : Nat

/-- Embedding of `NewRingBuffer`: a non-positive requested capacity falls back
to the default capacity 64; the backing slice starts zero-filled. -/
def NewRingBuffer (α : Type) [Inhabited α] (capacity : Int) : RingBuffer α :=
  let c : Nat := if capacity ≤ 0 then 64 else capacity.toNat
  { data := fun _ => default, head := 0, tail := 0, count := 0, cap := c }

/-- Embedding of `RingBuffer.Push`: write at `tail`, advance `tail` mod `cap`;
grow `count` while not full, otherwise advance `head` (dropping the oldest). -/
def RingBuffer.Push {α : Type} (rb : RingBuffer α) (item : α) : RingBuffer α :=
  let data' := fun i => if i = rb.tail then item else rb.data i
  let tail' := (rb.tail + 1) % rb.cap
  if rb.count < rb.cap then
    { rb with data := data', tail := tail', count := rb.count + 1 }
  else
    { rb with data := data', tail := tail', head := (rb.head + 1) % rb.cap }

/-- Embedding of `RingBuffer.GetAll`: the `count` live elements read from
`head` forward, oldest to newest (the Go loop `result[i] = data[(head+i)%cap]`). -/
def RingBuffer.GetAll {α : Type} (rb : RingBuffer α) : List α :=
  if rb.count = 0 then []
  else (List.range rb.count).map fun i => rb.data ((rb.head + i) % rb.cap)

/-- A sequence of `Push` calls, in order. -/
def RingBuffer.pushAll {α : Type} (rb : RingBuffer α) (xs : List α) : RingBuffer α :=
  xs.foldl RingBuffer.Push rb

/-- The inductive invariant tying a ring buffer to the whole list `xs` of
values pushed so far: the counters are the obvious functions of `xs.length`,
and the live window holds the last `count` pushed values in order. -/
def RingBuffer.Inv {α : Type} [Inhabited α] (rb : RingBuffer α) (xs : List α) : Prop :=
  rb.count = min xs.length rb.cap ∧
  rb.head = (xs.length - rb.count) % rb.cap ∧
  rb.tail = xs.length % rb.cap ∧
  ∀ i, i < rb.count → rb.data ((rb.head + i) % rb.cap) = xs.getD (xs.length - rb.count + i) default

/- ==================== Per-group thinking lock (internal/agent/react_agent.go, Agent.think) ==================== -/

/-- Atomic events of the `Agent.think` entry/exit protocol.  `a.processingMu`
makes the test-and-set block at the top of `think` and the deferred clear one
atomic step each, so an interleaving of concurrent `think` calls is a sequence
of these events.  `enter ep g` is invocation `ep` of `think(g, _)` reaching the
guarded block; `leave ep g` is its deferred `processing[g] = false` (only ever
run by an invocation that passed the guard, since the early return precedes the
`defer`). -/
inductive ThinkEvent where
  | enter (ep : Nat) (g : Int)
  | leave (ep : Nat) (g : Int)
deriving DecidableEq

/-- State of the think-serialization protocol: `processing` is the Go map
`a.processing` (defaulting to `false` for absent keys); `holders` lists the
invocations that passed the guard and are currently inside the episode body
(these are exactly the invocations that may go on to call the LLM); `aborted`
lists the invocations that hit `processing[groupID] == true` and returned
immediately, never reaching the LLM. -/
structure ThinkState where
  processing : Int → Bool
  holders : List (Nat × Int)
  aborted : List Nat

/-- Initial state: empty `processing` map, no invocation in flight. -/
def initThink : ThinkState :=
  { processing := fun _ => false, holders := [], aborted := [] }

/-- One atomic step of the protocol, mirroring the locked sections of
`Agent.think` (react_agent.go lines 915-929). -/
def thinkStep (s : ThinkState) (e : ThinkEvent) : ThinkState :=
  match e with
  | .enter ep g =>
    if s.processing g then
      { s with aborted := ep :: s.aborted }
    else
      { processing := fun x => if x = g then true else s.processing x,
        holders := (ep, g) :: s.holders,
        aborted := s.aborted }
  | .leave ep g =>
    if (ep, g) ∈ s.holders then
      { processing := fun x => if x = g then false else s.processing x,
        holders := s.holders.filter (fun pr => decide (pr ≠ (ep, g))),
        aborted := s.aborted }
    else s

/-- Run the protocol over a sequence of atomic events from the initial state. -/
def thinkRun (es : List ThinkEvent) : ThinkState :=
  es.foldl thinkStep initThink

/-- Invariant of the think protocol: the `processing` flag of a group is set
exactly when some invocation holds that group, and no two in-flight
invocations hold the same group. -/
def ThinkInv (s : ThinkState) : Prop :=
  (∀ g, s.processing g = true ↔ ∃ pr ∈ s.holders, pr.2 = g) ∧
  s.holders.Pairwise (fun a b => a.2 ≠ b.2)

/- ==================== Mood state (memory manager, unnamed/part_013) ==================== -/

/-- Embedding of `memory.MoodState` (the three mood dimensions and the last
change reason; id and timestamp dropped).  `float64` is idealized as `ℚ`. -/
structure MoodState where
  Valence : ℚ
  Energy : ℚ
  Sociability : ℚ
  LastReason : String
deriving DecidableEq, Repr

/-- Modelled from the spec: `utils.ClampFloat64` is referenced by
`Manager.UpdateMoodState` but its defining file is not among the provided
sources.  The spec describes it as per-field clamping of a value into a
closed interval, which is the standard clamp. -/
def ClampFloat64 (v lo hi : ℚ) : ℚ :=
  if v < lo then lo else if v > hi then hi else v

/-- Embedding of `Manager.GetMoodState`: return the singleton row, creating
the default mood (0, 0.5, 0.5) when the table is empty.  The current table
content is passed explicitly as an `Option`. -/
def GetMoodState (curr : Option MoodState) : MoodState :=
  curr.getD { Valence := 0, Energy := 0.5, Sociability := 0.5, LastReason := "" }

/-- Embedding of `Manager.UpdateMoodState` (part_013 lines 734-750):
read-modify-write with per-field clamping; returns the state that is both
saved and handed back to the caller. -/
def UpdateMoodState (curr : Option MoodState) (valenceDelta energyDelta sociabilityDelta : ℚ)
    (reason : String) : MoodState :=
  let mood := GetMoodState curr
  { Valence := ClampFloat64 (mood.Valence + valenceDelta) (-1) 1,
    Energy := ClampFloat64 (mood.Energy + energyDelta) 0 1,
    Sociability := ClampFloat64 (mood.Sociability + sociabilityDelta) 0 1,
    LastReason := reason }

/-- Embedding of `Manager.ApplyMoodDecay` (part_013 lines 753-768): valence
decays multiplicatively toward 0, energy and sociability move 5% of the way
toward 0.5. -/
def ApplyMoodDecay (mood : MoodState) : MoodState :=
  { mood with
    Valence := mood.Valence * 0.95,
    Energy := mood.Energy + (0.5 - mood.Energy) * 0.05,
    Sociability := mood.Sociability + (0.5 - mood.Sociability) * 0.05 }

/- ==================== Expressions (memory manager, unnamed/part_013) ==================== -/

/-- Embedding of `memory.Expression` (id and timestamps dropped; the row id
plays no role in `SaveExpression`, whose lookup and update both key on
(group_id, situation, style)). -/
structure Expression where
  GroupID : Int
  Situation : String
  Style : String
  Examples : String
  Checked : Bool
  Rejected : Bool
deriving DecidableEq, Repr

/-- The uniqueness key of `SaveExpression`: rows matching the incoming
expression on (group_id, situation, style). -/
def expKey (e : Expression) (r : Expression) : Bool :=
  decide (r.GroupID = e.GroupID) && decide (r.Situation = e.Situation) &&
    decide (r.Style = e.Style)

/-- Update the first row satisfying `p`, overwriting its `Examples` column;
this is the effect of `db.Model(&existing).Updates(examples)` where
`existing` was fetched with `First`. -/
def backfillFirst (p : Expression → Bool) (newExamples : String) :
    List Expression → List Expression
  | [] => []
  | r :: rest =>
    if p r then { r with Examples := newExamples } :: rest
    else r :: backfillFirst p newExamples rest

/-- Embedding of `Manager.SaveExpression` (part_013 lines 337-366) acting on
an explicit table.  The Go nil-pointer guard has no counterpart because the
model passes the expression by value.  Returns the flag returned to the
caller together with the table after the call. -/
def SaveExpression (table : List Expression) (exp : Expression) : Bool × List Expression :=
  if exp.GroupID ≠ 0 ∧ exp.Situation ≠ "" ∧ exp.Style ≠ "" then
    match table.find? (expKey exp) with
    | some existing =>
      if existing.Examples = "" ∧ exp.Examples ≠ "" then
        (true, backfillFirst (expKey exp) exp.Examples table)
      else
        (false, table)
    | none => (true, table ++ [exp])
  else
    (true, table ++ [exp])

/- ==================== Member profiles (memory manager, unnamed/part_013) ==================== -/

/-- Embedding of `memory.MemberProfile` (id and timestamps dropped).
`last_speak` is an instant in seconds; the two float columns are `ℚ`. -/
structure MemberProfile where
  UserID : Int
  Nickname : String
  SpeakStyle : String
  Interests : String
  CommonWords : String
  Activity : ℚ
  Intimacy : ℚ
  LastSpeak : ℚ
  MsgCount : Nat
deriving DecidableEq, Repr

/-- Embedding of `Manager.UpdateMemberProfile` (part_013 lines 507-525).
`now` is the current instant in seconds; `time.Since(p.LastSpeak).Hours()/24`
becomes `((now - p.LastSpeak) / 3600) / 24`.  Returns the profile as written
by `db.Save`. -/
def UpdateMemberProfile (p : MemberProfile) (now : ℚ) : MemberProfile :=
  let daysSinceLastSpeak := ((now - p.LastSpeak) / 3600) / 24
  let a1 :=
    if daysSinceLastSpeak > 0 then
      let a := p.Activity - 0.1 * daysSinceLastSpeak
      if a < 0.1 then (0.1 : ℚ) else a
    else p.Activity
  let a2 :=
    if now - p.LastSpeak < 3600 then
      let a := a1 + 0.05
      if a > 1 then (1 : ℚ) else a
    else a1
  { p with Activity := a2 }

/- ==================== Long-term memory query (memory manager, unnamed/part_013) ==================== -/

/-- Embedding of `memory.Memory` (timestamps reduced to the `updated_at`
sort key, in seconds). -/
structure Memory where
  ID : Nat
  MemType : String
  GroupID : Int
  UserID : Int
  Content : String
  Importance : ℚ
  UpdatedAt : ℚ
  AccessCount : Nat
deriving DecidableEq, Repr

/-- Embedding of Go's `strings.Fields`: split around runs of whitespace,
dropping empty pieces. -/
def stringFields (s : String) : List String :=
  (s.split Char.isWhitespace).filter (fun t => decide (t ≠ ""))

/-- Contiguous-substring test on character lists; `containsSub s pat` is the
SQL predicate `content LIKE %pat%` for literal `pat`. -/
def containsSub (s pat : List Char) : Bool :=
  match s with
  | [] => decide (pat = [])
  | _ :: rest => pat.isPrefixOf s || containsSub rest pat

/-- The row predicate of the keyword-fallback query: the group filter
(applied only when `groupID ≠ 0`), the type filter (only when the type is
non-empty), and the OR of one `LIKE` per whitespace token of the query. -/
def memKeywordPred (query : String) (groupID : Int) (memType : String) (m : Memory) : Bool :=
  (decide (groupID = 0) || decide (m.GroupID = groupID)) &&
  (decide (memType = "") || decide (m.MemType = memType)) &&
  (stringFields query).any (fun kw => containsSub m.Content.toList kw.toList)

/-- The `ORDER BY importance DESC, updated_at DESC` comparison: `a` may come
before `b` when `a` has larger importance, or equal importance and no smaller
`updated_at`. -/
def memLE (a b : Memory) : Bool :=
  decide (b.Importance < a.Importance) ||
    (decide (a.Importance = b.Importance) && decide (b.UpdatedAt ≤ a.UpdatedAt))

/-- The keyword-fallback branch of `Manager.QueryMemory` (part_013 lines
170-208): empty token list returns the empty result before any SQL; otherwise
filter, order and limit.  A negative limit leaves the query unlimited (the
driver omits the LIMIT clause), matching the `Limit(limit)` call. -/
def queryMemoryKeyword (table : List Memory) (query : String) (groupID : Int)
    (memType : String) (limit : Int) : List Memory :=
  let keywords := stringFields query
  if keywords.isEmpty then []
  else
    let sorted := (table.filter (memKeywordPred query groupID memType)).mergeSort memLE
    if limit < 0 then sorted else sorted.take limit.toNat

/-- Embedding of `Manager.QueryMemory` (part_013 lines 160-208).
`vectorResults` is `none` when the vector path is unavailable (no Milvus
client, no embedding provider, or the embedding call failed) and `some rs`
when the vector search succeeded with rows `rs`; the source falls through to
the keyword query both on `none` and on an empty vector result. -/
def QueryMemory (vectorResults : Option (List Memory)) (table : List Memory)
    (query : String) (groupID : Int) (memType : String) (limit : Int) : List Memory :=
  match vectorResults with
  | some rs => if rs.length > 0 then rs else queryMemoryKeyword table query groupID memType limit
  | none => queryMemoryKeyword table query groupID memType limit

/- ==================== Stickers (memory manager, unnamed/part_013) ==================== -/

/-- Embedding of `memory.Sticker` (id and timestamps dropped). -/
structure Sticker where
  FileName : String
  FileHash : String
  Description : String
  UseCount : Nat
deriving DecidableEq, Repr

/-- Embedding of `Manager.SaveSticker` (part_013 lines 626-643): look up the
hash with `First`; on a hit return the duplicate flag without touching the
table, otherwise `Create` the row.  Returns (duplicate flag, table after the
call). -/
def SaveSticker (table : List Sticker) (sticker : Sticker) : Bool × List Sticker :=
  match table.find? (fun r => decide (r.FileHash = sticker.FileHash)) with
  | some _ => (true, table)
  | none => (false, table ++ [sticker])

/- ==================== Speak probability and time rules (react_agent.go) ==================== -/

/-- Embedding of `config.TimeRule`. -/
structure TimeRule where
  GroupID : Int
  TimeRange : String
  TalkValue : ℚ
deriving DecidableEq, Repr

/-- The chat-section configuration fields read by `getSpeakProbability`. -/
structure ChatConfig where
  TalkFrequency : ℚ
  EnableTimeRules : Bool
  TimeRules : List TimeRule
deriving DecidableEq, Repr

/-- Digits of a decimal literal folded to a number. -/
def digitsToNat (ds : List Char) : Nat :=
  ds.foldl (fun n c => n * 10 + (c.toNat - ('0').toNat)) 0

/-- Scan one `%d` verb of `fmt.Sscanf`: skip leading spaces, accept an
optional sign, then at least one digit; return the value and the rest. -/
def scanInt (cs : List Char) : Option (Int × List Char) :=
  let cs := cs.dropWhile (fun c => decide (c = ' '))
  let core : List Char → Option (Int × List Char) := fun ds =>
    let digits := ds.takeWhile Char.isDigit
    if digits.isEmpty then none
    else some ((digitsToNat digits : Int), ds.dropWhile Char.isDigit)
  match cs with
  | '-' :: rest => (core rest).map (fun pr => (-pr.1, pr.2))
  | '+' :: rest => core rest
  | _ => core cs

/-- Match one literal character of the `fmt.Sscanf` format string. -/
def expectChar (c : Char) : List Char → Option (List Char)
  | x :: rest => if x = c then some rest else none
  | [] => none

/-- Embedding of `fmt.Sscanf(rule.TimeRange, "%d:%d-%d:%d", ...)`: the four
numbers on success, `none` when the input does not match the format (the
source then skips the rule). -/
def parseTimeRange (s : String) : Option (Int × Int × Int × Int) :=
  (scanInt s.toList).bind fun pr1 =>
  (expectChar ':' pr1.2).bind fun r1 =>
  (scanInt r1).bind fun pr2 =>
  (expectChar '-' pr2.2).bind fun r2 =>
  (scanInt r2).bind fun pr3 =>
  (expectChar ':' pr3.2).bind fun r3 =>
  (scanInt r3).map fun pr4 => (pr1.1, pr2.1, pr3.1, pr4.1)

/-- The rule loop of `getSpeakProbability` (react_agent.go lines 871-896):
skip rules for other groups and rules whose range fails to parse; a
non-wrapping range matches `start ≤ t < end`, a wrapping range (start > end)
matches `t ≥ start ∨ t < end`; the first match returns its talk value. -/
def ruleTalkValue (groupID : Int) (currentMinutes : Int) : List TimeRule → Option ℚ
  | [] => none
  | rule :: rest =>
    if rule.GroupID ≠ 0 ∧ rule.GroupID ≠ groupID then
      ruleTalkValue groupID currentMinutes rest
    else
      match parseTimeRange rule.TimeRange with
      | none => ruleTalkValue groupID currentMinutes rest
      | some (sh, sm, eh, em) =>
        let startMinutes := sh * 60 + sm
        let endMinutes := eh * 60 + em
        if startMinutes ≤ endMinutes then
          if startMinutes ≤ currentMinutes ∧ currentMinutes < endMinutes then
            some rule.TalkValue
          else ruleTalkValue groupID currentMinutes rest
        else
          if currentMinutes ≥ startMinutes ∨ currentMinutes < endMinutes then
            some rule.TalkValue
          else ruleTalkValue groupID currentMinutes rest

/-- Embedding of `Agent.getSpeakProbability` (react_agent.go lines 859-899):
base frequency when time rules are disabled or absent, otherwise the first
matching rule's talk value, falling back to the base frequency. -/
def getSpeakProbability (cfg : ChatConfig) (groupID : Int) (hour minute : Nat) : ℚ :=
  if ¬cfg.EnableTimeRules ∨ cfg.TimeRules = [] then cfg.TalkFrequency
  else
    match ruleTalkValue groupID ((hour : Int) * 60 + (minute : Int)) cfg.TimeRules with
    | some v => v
    | none => cfg.TalkFrequency

/-- Whether a single time rule applies to `groupID` at minute-of-day `t`:
its group matches (own group or the 0 wildcard) and its parsed range contains
`t`, wrapping ranges meaning `t ≥ start ∨ t < end`.  Used to characterize the
rule loop as a first-match search. -/
def ruleMatches (groupID : Int) (t : Int) (rule : TimeRule) : Bool :=
  (decide (rule.GroupID = 0) || decide (rule.GroupID = groupID)) &&
  match parseTimeRange rule.TimeRange with
  | none => false
  | some (sh, sm, eh, em) =>
    let startMinutes := sh * 60 + sm
    let endMinutes := eh * 60 + em
    if startMinutes ≤ endMinutes then
      decide (startMinutes ≤ t) && decide (t < endMinutes)
    else
      decide (t ≥ startMinutes) || decide (t < endMinutes)

/- ==================== Speak callback (react_agent.go, Agent.doSpeak) ==================== -/

/-- The fields of `onebot.GroupMessage` that `doSpeak` constructs for the
re-ingested outbound-self message. -/
structure GroupMessage where
  MessageID : Int
  GroupID : Int
  UserID : Int
  Nickname : String
  Content : String
  Time : ℚ
  MessageType : String
deriving DecidableEq, Repr

/-- The agent state touched by `doSpeak`: the `lastSpeak` map updated by
`recordSpeak`, and the stream of messages handed to `onMessage` (the intake
path feeding buffers and logs). -/
structure AgentSpeakState where
  lastSpeak : Int → Option ℚ
  ingested : List GroupMessage

/-- Embedding of `Agent.doSpeak` (react_agent.go lines 1186-1229).
`sendResult` is the outcome of the gateway send (`SendGroupMessageReply` when
`replyTo > 0`, `SendGroupMessage` otherwise): `Except.error` embeds a failed
send, `Except.ok msgID` a successful one.  The typing-simulation sleep is
real-time behavior with no state effect and is not modelled.  On failure the
function returns message id 0 and performs no state change; on success it
records `lastSpeak[groupID] = now` and feeds the sent message back through
`onMessage`. -/
def doSpeak (st : AgentSpeakState) (selfID : Int) (personaName : String) (now : ℚ)
    (groupID : Int) (content : String) (replyTo : Int)
    (sendResult : Except String Int) : Int × AgentSpeakState :=
  match sendResult with
  | .error _ => (0, st)
  | .ok msgID =>
    let msg : GroupMessage :=
      { MessageID := msgID, GroupID := groupID, UserID := selfID,
        Nickname := personaName, Content := content, Time := now,
        MessageType := "group" }
    let st' : AgentSpeakState :=
      { lastSpeak := fun g => if g = groupID then some now else st.lastSpeak g,
        ingested := st.ingested ++ [msg] }
    (msgID, st')

/- ==================== Theorems ==================== -/

/-- Both bounds of the clamp, for a well-ordered interval. -/
theorem clampFloat64_mem (v lo hi : ℚ) (h : lo ≤ hi) :
    lo ≤ ClampFloat64 v lo hi ∧ ClampFloat64 v lo hi ≤ hi := by
  unfold ClampFloat64
  split_ifs with h1 h2 <;> constructor <;> linarith

/-- C8: for every starting mood state (present or defaulted) and all deltas,
the state written and returned by `UpdateMoodState` has valence in [-1,1],
energy in [0,1] and sociability in [0,1]. -/
theorem updateMoodState_clamped (curr : Option MoodState)
    (valenceDelta energyDelta sociabilityDelta : ℚ) (reason : String) :
    -1 ≤ (UpdateMoodState curr valenceDelta energyDelta sociabilityDelta reason).Valence ∧
    (UpdateMoodState curr valenceDelta energyDelta sociabilityDelta reason).Valence ≤ 1 ∧
    0 ≤ (UpdateMoodState curr valenceDelta energyDelta sociabilityDelta reason).Energy ∧
    (UpdateMoodState curr valenceDelta energyDelta sociabilityDelta reason).Energy ≤ 1 ∧
    0 ≤ (UpdateMoodState curr valenceDelta energyDelta sociabilityDelta reason).Sociability ∧
    (UpdateMoodState curr valenceDelta energyDelta sociabilityDelta reason).Sociability ≤ 1 := by
  have h1 := clampFloat64_mem ((GetMoodState curr).Valence + valenceDelta) (-1) 1 (by norm_num)
  have h2 := clampFloat64_mem ((GetMoodState curr).Energy + energyDelta) 0 1 (by norm_num)
  have h3 := clampFloat64_mem ((GetMoodState curr).Sociability + sociabilityDelta) 0 1 (by norm_num)
  exact ⟨h1.1, h1.2, h2.1, h2.2, h3.1, h3.2⟩

/-- C3: one application of `ApplyMoodDecay` maps valence to `0.95 * valence`,
energy to `energy + (0.5 - energy) * 0.05`, sociability likewise, and
strictly shrinks the distance of each component to its fixpoint
(0 for valence, 0.5 for the other two) unless the component is already there. -/
theorem applyMoodDecay_contraction (m : MoodState) :
    (ApplyMoodDecay m).Valence = 0.95 * m.Valence ∧
    (ApplyMoodDecay m).Energy = m.Energy + (0.5 - m.Energy) * 0.05 ∧
    (ApplyMoodDecay m).Sociability = m.Sociability + (0.5 - m.Sociability) * 0.05 ∧
    (m.Valence ≠ 0 → |(ApplyMoodDecay m).Valence - 0| < |m.Valence - 0|) ∧
    (m.Energy ≠ 0.5 → |(ApplyMoodDecay m).Energy - 0.5| < |m.Energy - 0.5|) ∧
    (m.Sociability ≠ 0.5 → |(ApplyMoodDecay m).Sociability - 0.5| < |m.Sociability - 0.5|) := by
  have hv : (ApplyMoodDecay m).Valence - 0 = 0.95 * (m.Valence - 0) := by
    simp only [ApplyMoodDecay]; ring
  have he : (ApplyMoodDecay m).Energy - 0.5 = 0.95 * (m.Energy - 0.5) := by
    simp only [ApplyMoodDecay]; ring
  have hs : (ApplyMoodDecay m).Sociability - 0.5 = 0.95 * (m.Sociability - 0.5) := by
    simp only [ApplyMoodDecay]; ring
  have key : ∀ x : ℚ, x ≠ 0 → |(0.95 : ℚ) * x| < |x| := by
    intro x hx
    rw [abs_mul]
    have h95 : |(0.95 : ℚ)| = 0.95 := by norm_num
    rw [h95]
    exact mul_lt_of_lt_one_left (abs_pos.mpr hx) (by norm_num)
  refine ⟨by simp only [ApplyMoodDecay]; ring, rfl, rfl, ?_, ?_, ?_⟩
  · intro h
    rw [hv]
    exact key _ (by simpa using h)
  · intro h
    rw [he]
    exact key _ (fun hc => h (by linarith [sub_eq_zero.mp hc]))
  · intro h
    rw [hs]
    exact key _ (fun hc => h (by linarith [sub_eq_zero.mp hc]))

/-- Concrete instance of the decay contraction at mood (1, 0, 1). -/
theorem applyMoodDecay_contraction_witness :
    |(ApplyMoodDecay ⟨1, 0, 1, ""⟩).Valence - 0| < |(⟨1, 0, 1, ""⟩ : MoodState).Valence - 0| ∧
    |(ApplyMoodDecay ⟨1, 0, 1, ""⟩).Energy - 0.5| < |(⟨1, 0, 1, ""⟩ : MoodState).Energy - 0.5| ∧
    |(ApplyMoodDecay ⟨1, 0, 1, ""⟩).Sociability - 0.5| <
      |(⟨1, 0, 1, ""⟩ : MoodState).Sociability - 0.5| :=
  ⟨(applyMoodDecay_contraction ⟨1, 0, 1, ""⟩).2.2.2.1 (by norm_num),
   (applyMoodDecay_contraction ⟨1, 0, 1, ""⟩).2.2.2.2.1 (by norm_num),
   (applyMoodDecay_contraction ⟨1, 0, 1, ""⟩).2.2.2.2.2 (by norm_num)⟩

/-- C9: `SaveSticker` with a hash already present leaves the table unchanged
(in particular the row count) and reports a duplicate; with an unseen hash it
appends exactly one row and reports no duplicate. -/
theorem saveSticker_hash_idempotent (table : List Sticker) (s : Sticker) :
    ((∃ r ∈ table, r.FileHash = s.FileHash) →
      SaveSticker table s = (true, table) ∧ (SaveSticker table s).2.length = table.length) ∧
    ((¬∃ r ∈ table, r.FileHash = s.FileHash) →
      SaveSticker table s = (false, table ++ [s]) ∧
      (SaveSticker table s).2.length = table.length + 1) := by
  constructor
  · intro hex
    have : (table.find? (fun r => decide (r.FileHash = s.FileHash))).isSome := by
      rw [List.find?_isSome]
      obtain ⟨r, hr, hh⟩ := hex
      exact ⟨r, hr, by simpa using hh⟩
    obtain ⟨r, hr⟩ := Option.isSome_iff_exists.mp this
    simp [SaveSticker, hr]
  · intro hnone
    have : table.find? (fun r => decide (r.FileHash = s.FileHash)) = none := by
      rw [List.find?_eq_none]
      intro r hr
      simp only [decide_eq_true_eq]
      exact fun hh => hnone ⟨r, hr, hh⟩
    simp [SaveSticker, this]

/-- Concrete instance of the sticker dedupe contract: pushing a hash that is
present, then one that is absent. -/
theorem saveSticker_hash_idempotent_witness :
    (SaveSticker [⟨"a.png", "h1", "d", 0⟩] ⟨"b.png", "h1", "d2", 0⟩ =
      (true, [⟨"a.png", "h1", "d", 0⟩]) ∧
     (SaveSticker [⟨"a.png", "h1", "d", 0⟩] ⟨"b.png", "h1", "d2", 0⟩).2.length = 1) ∧
    (SaveSticker [⟨"a.png", "h1", "d", 0⟩] ⟨"b.png", "h2", "d2", 0⟩ =
      (false, [⟨"a.png", "h1", "d", 0⟩, ⟨"b.png", "h2", "d2", 0⟩]) ∧
     (SaveSticker [⟨"a.png", "h1", "d", 0⟩] ⟨"b.png", "h2", "d2", 0⟩).2.length = 2) :=
  ⟨(saveSticker_hash_idempotent [⟨"a.png", "h1", "d", 0⟩] ⟨"b.png", "h1", "d2", 0⟩).1
      ⟨⟨"a.png", "h1", "d", 0⟩, by decide, by decide⟩,
   (saveSticker_hash_idempotent [⟨"a.png", "h1", "d", 0⟩] ⟨"b.png", "h2", "d2", 0⟩).2
      (by decide)⟩

/-- C10: the speak callback `doSpeak` returns message id 0 and leaves the
agent state unchanged when the gateway send fails; only on a successful send
does it record `lastSpeak` for the group and feed the outbound-self message
back through the intake path (and it touches no other group's `lastSpeak`). -/
theorem doSpeak_frame (st : AgentSpeakState) (selfID : Int) (personaName : String)
    (now : ℚ) (groupID : Int) (content : String) (replyTo : Int) :
    (∀ errMsg, doSpeak st selfID personaName now groupID content replyTo
        (Except.error errMsg) = (0, st)) ∧
    (∀ msgID,
      (doSpeak st selfID personaName now groupID content replyTo (Except.ok msgID)).1 = msgID ∧
      (doSpeak st selfID personaName now groupID content replyTo
          (Except.ok msgID)).2.lastSpeak groupID = some now ∧
      (∀ g, g ≠ groupID →
        (doSpeak st selfID personaName now groupID content replyTo
            (Except.ok msgID)).2.lastSpeak g = st.lastSpeak g) ∧
      (doSpeak st selfID personaName now groupID content replyTo
          (Except.ok msgID)).2.ingested =
        st.ingested ++ [{ MessageID := msgID, GroupID := groupID, UserID := selfID,
                          Nickname := personaName, Content := content, Time := now,
                          MessageType := "group" }]) := by
  refine ⟨fun _ => rfl, fun msgID => ⟨rfl, ?_, ?_, rfl⟩⟩
  · simp [doSpeak]
  · intro g hg
    simp [doSpeak, hg]

/-- Concrete instance of the speak-failure frame effect for group 1, checking
untouched state on failure and the group-2 `lastSpeak` frame on success. -/
theorem doSpeak_frame_witness :
    (doSpeak ⟨fun _ => none, []⟩ 9 "mumu" 100 1 "hi" 0 (Except.error "down") =
      (0, ⟨fun _ => none, []⟩)) ∧
    (doSpeak ⟨fun _ => none, []⟩ 9 "mumu" 100 1 "hi" 0 (Except.ok 77)).2.lastSpeak 2 =
      (⟨fun _ => none, []⟩ : AgentSpeakState).lastSpeak 2 :=
  ⟨(doSpeak_frame ⟨fun _ => none, []⟩ 9 "mumu" 100 1 "hi" 0).1 "down",
   (((doSpeak_frame ⟨fun _ => none, []⟩ 9 "mumu" 100 1 "hi" 0).2 77).2.2.1) 2 (by decide)⟩

/-- C4 counterexample: with a stored row for (1, "greet", "casual") whose
examples are empty, `SaveExpression` of a matching expression carrying
non-empty examples backfills but returns the flag `true`, while the claim
says this backfill case returns `created = false`. -/
theorem saveExpression_backfill_cex :
    (SaveExpression [⟨1, "greet", "casual", "", false, false⟩]
        ⟨1, "greet", "casual", "yo", false, false⟩).1 = true ∧
    (SaveExpression [⟨1, "greet", "casual", "", false, false⟩]
        ⟨1, "greet", "casual", "yo", false, false⟩).2 =
      [⟨1, "greet", "casual", "yo", false, false⟩] := by
  constructor <;> rfl

/-- C4 (amended): with uniqueness on (group_id, situation, style) — checked
only when all three key fields are non-trivial — a matching row with empty
examples and a non-empty incoming examples field is backfilled and the call
returns `created = true`; any other matching row makes the call a no-op
returning `created = false`; with no matching row the call inserts and
returns `created = true`. -/
theorem saveExpression_created_flag (table : List Expression) (exp : Expression)
    (hkey : exp.GroupID ≠ 0 ∧ exp.Situation ≠ "" ∧ exp.Style ≠ "") :
    (∀ existing, table.find? (expKey exp) = some existing →
      ((existing.Examples = "" ∧ exp.Examples ≠ "") →
        SaveExpression table exp = (true, backfillFirst (expKey exp) exp.Examples table)) ∧
      (¬(existing.Examples = "" ∧ exp.Examples ≠ "") →
        SaveExpression table exp = (false, table))) ∧
    (table.find? (expKey exp) = none →
      SaveExpression table exp = (true, table ++ [exp])) := by
  constructor
  · intro existing hfind
    constructor
    · intro hback
      simp [SaveExpression, hkey, hfind, hback]
    · intro hno
      simp only [SaveExpression, if_pos hkey, hfind]
      rw [if_neg hno]
  · intro hfind
    simp [SaveExpression, hkey, hfind]

/-- Concrete instance of the amended `SaveExpression` contract: insertion
into an empty table returns `created = true`. -/
theorem saveExpression_created_flag_witness :
    SaveExpression [] ⟨1, "greet", "casual", "yo", false, false⟩ =
      (true, [⟨1, "greet", "casual", "yo", false, false⟩]) :=
  (saveExpression_created_flag [] ⟨1, "greet", "casual", "yo", false, false⟩
    (by decide)).2 rfl

/-- C5 counterexample: a profile whose activity and intimacy start at 2,
written two hours after its `last_speak`, is saved with activity
2 - 0.1/12 > 1 and intimacy still 2: `UpdateMemberProfile` clamps neither
field into [0,1] for out-of-range inputs (and never touches intimacy). -/
theorem updateMemberProfile_clamp_cex :
    1 < (UpdateMemberProfile ⟨100, "u", "", "", "", 2, 2, 0, 0⟩ 7200).Activity ∧
    1 < (UpdateMemberProfile ⟨100, "u", "", "", "", 2, 2, 0, 0⟩ 7200).Intimacy := by
  constructor <;> norm_num [UpdateMemberProfile]

/-- C5 (amended): `UpdateMemberProfile` preserves (rather than establishes)
the [0,1] bounds: whenever the incoming profile's activity and intimacy
already lie in [0,1], the written profile's do too; intimacy is never
modified by this function (it is clamped only at the tool layer on input). -/
theorem updateMemberProfile_clamped (p : MemberProfile) (now : ℚ)
    (hA : 0 ≤ p.Activity ∧ p.Activity ≤ 1) (hI : 0 ≤ p.Intimacy ∧ p.Intimacy ≤ 1) :
    (0 ≤ (UpdateMemberProfile p now).Activity ∧ (UpdateMemberProfile p now).Activity ≤ 1) ∧
    (0 ≤ (UpdateMemberProfile p now).Intimacy ∧ (UpdateMemberProfile p now).Intimacy ≤ 1) ∧
    (UpdateMemberProfile p now).Intimacy = p.Intimacy := by
  obtain ⟨hA0, hA1⟩ := hA
  simp only [UpdateMemberProfile]
  split_ifs <;>
    exact ⟨⟨by linarith, by linarith⟩, ⟨hI.1, hI.2⟩, by trivial⟩

/-- Concrete instance of the amended profile-write bounds at the default
float values, written two hours after `last_speak`. -/
theorem updateMemberProfile_clamped_witness :
    (0 ≤ (UpdateMemberProfile ⟨100, "u", "", "", "", 1/2, 3/10, 0, 0⟩ 7200).Activity ∧
      (UpdateMemberProfile ⟨100, "u", "", "", "", 1/2, 3/10, 0, 0⟩ 7200).Activity ≤ 1) ∧
    (0 ≤ (UpdateMemberProfile ⟨100, "u", "", "", "", 1/2, 3/10, 0, 0⟩ 7200).Intimacy ∧
      (UpdateMemberProfile ⟨100, "u", "", "", "", 1/2, 3/10, 0, 0⟩ 7200).Intimacy ≤ 1) ∧
    (UpdateMemberProfile ⟨100, "u", "", "", "", 1/2, 3/10, 0, 0⟩ 7200).Intimacy = 3/10 :=
  updateMemberProfile_clamped ⟨100, "u", "", "", "", 1/2, 3/10, 0, 0⟩ 7200
    (by norm_num) (by norm_num)

/-- The rule loop of `getSpeakProbability` is a first-match search: it yields
the talk value of the first rule satisfying `ruleMatches`. -/
theorem ruleTalkValue_eq_find (g t : Int) (rules : List TimeRule) :
    ruleTalkValue g t rules = (rules.find? (ruleMatches g t)).map TimeRule.TalkValue := by
  induction rules with
  | nil => rfl
  | cons r rest ih =>
    by_cases hg : r.GroupID ≠ 0 ∧ r.GroupID ≠ g
    · have hm : ruleMatches g t r = false := by
        have h1 : decide (r.GroupID = 0) = false := by simpa using hg.1
        have h2 : decide (r.GroupID = g) = false := by simpa using hg.2
        simp [ruleMatches, h1, h2]
      have hstep : ruleTalkValue g t (r :: rest) = ruleTalkValue g t rest := by
        simp only [ruleTalkValue]
        rw [if_pos hg]
      rw [hstep, List.find?_cons_of_neg _ (by simp [hm]), ih]
    · have hgOK : (decide (r.GroupID = 0) || decide (r.GroupID = g)) = true := by
        rcases eq_or_ne r.GroupID 0 with h | h
        · simp [h]
        · have : r.GroupID = g := by
            by_contra hne
            exact hg ⟨h, hne⟩
          simp [this]
      cases hp : parseTimeRange r.TimeRange with
      | none =>
        have hm : ruleMatches g t r = false := by
          simp [ruleMatches, hp]
        have hstep : ruleTalkValue g t (r :: rest) = ruleTalkValue g t rest := by
          simp only [ruleTalkValue]
          rw [if_neg hg, hp]
        rw [hstep, List.find?_cons_of_neg _ (by simp [hm]), ih]
      | some quad =>
        obtain ⟨sh, sm, eh, em⟩ := quad
        by_cases hrange : sh * 60 + sm ≤ eh * 60 + em
        · by_cases hin : sh * 60 + sm ≤ t ∧ t < eh * 60 + em
          · have hm : ruleMatches g t r = true := by
              simp only [ruleMatches, hp, hgOK, Bool.true_and]
              rw [if_pos hrange]
              simp [hin.1, hin.2]
            have hstep : ruleTalkValue g t (r :: rest) = some r.TalkValue := by
              simp only [ruleTalkValue]
              rw [if_neg hg, hp]
              simp only [if_pos hrange, if_pos hin]
            rw [hstep, List.find?_cons_of_pos _ hm]
            rfl
          · have hm : ruleMatches g t r = false := by
              simp only [ruleMatches, hp, hgOK, Bool.true_and]
              rw [if_pos hrange]
              rcases Decidable.not_and_iff_or_not.mp hin with h | h <;> simp [h]
            have hstep : ruleTalkValue g t (r :: rest) = ruleTalkValue g t rest := by
              simp only [ruleTalkValue]
              rw [if_neg hg, hp]
              simp only [if_pos hrange, if_neg hin]
            rw [hstep, List.find?_cons_of_neg _ (by simp [hm]), ih]
        · by_cases hin : t ≥ sh * 60 + sm ∨ t < eh * 60 + em
          · have hm : ruleMatches g t r = true := by
              simp only [ruleMatches, hp, hgOK, Bool.true_and]
              rw [if_neg hrange]
              rcases hin with h | h <;> simp [h]
            have hstep : ruleTalkValue g t (r :: rest) = some r.TalkValue := by
              simp only [ruleTalkValue]
              rw [if_neg hg, hp]
              simp only [if_neg hrange, if_pos hin]
            rw [hstep, List.find?_cons_of_pos _ hm]
            rfl
          · have hm : ruleMatches g t r = false := by
              simp only [ruleMatches, hp, hgOK, Bool.true_and]
              rw [if_neg hrange]
              push_neg at hin
              simp [hin.1, hin.2]
            have hstep : ruleTalkValue g t (r :: rest) = ruleTalkValue g t rest := by
              simp only [ruleTalkValue]
              rw [if_neg hg, hp]
              simp only [if_neg hrange, if_neg hin]
            rw [hstep, List.find?_cons_of_neg _ (by simp [hm]), ih]

/-- C7: `getSpeakProbability` returns the base `chat.talk_frequency` when
time rules are disabled or none matches, and otherwise the talk value of the
first rule (in list order) applying to the group (its group id equal to the
group or 0) whose parsed HH:MM-HH:MM range contains the current minute, a
range with start > end wrapping midnight (`t ≥ start ∨ t < end`); in
particular for the range 23:00-01:00 the minutes 23:30 and 00:30 match and
12:00 does not. -/
theorem getSpeakProbability_spec :
    (∀ (cfg : ChatConfig) (g : Int) (hour minute : Nat),
      getSpeakProbability cfg g hour minute =
        if ¬cfg.EnableTimeRules ∨ cfg.TimeRules = [] then cfg.TalkFrequency
        else
          match cfg.TimeRules.find? (ruleMatches g ((hour : Int) * 60 + (minute : Int))) with
          | some r => r.TalkValue
          | none => cfg.TalkFrequency) ∧
    ruleMatches 1 (23 * 60 + 30) ⟨0, "23:00-01:00", 7/10⟩ = true ∧
    ruleMatches 1 30 ⟨0, "23:00-01:00", 7/10⟩ = true ∧
    ruleMatches 1 (12 * 60) ⟨0, "23:00-01:00", 7/10⟩ = false ∧
    getSpeakProbability ⟨0, true, [⟨0, "23:00-01:00", 1⟩]⟩ 5 23 30 = 1 ∧
    getSpeakProbability ⟨0, true, [⟨0, "23:00-01:00", 1⟩]⟩ 5 0 30 = 1 ∧
    getSpeakProbability ⟨0, true, [⟨0, "23:00-01:00", 1⟩]⟩ 5 12 0 = 0 := by
  refine ⟨?_, by decide, by decide, by decide, by decide, by decide, by decide⟩
  intro cfg g hour minute
  by_cases hoff : ¬cfg.EnableTimeRules ∨ cfg.TimeRules = []
  · rw [if_pos hoff]
    simp only [getSpeakProbability]
    rw [if_pos hoff]
  · rw [if_neg hoff]
    simp only [getSpeakProbability]
    rw [if_neg hoff, ruleTalkValue_eq_find]
    cases cfg.TimeRules.find? (ruleMatches g ((hour : Int) * 60 + (minute : Int))) <;> rfl

/-- The think-protocol invariant holds initially. -/
theorem thinkInv_init : ThinkInv initThink := by
  constructor
  · intro g
    simp [initThink]
  · simp [initThink]

/-- The think-protocol invariant is preserved by every atomic step. -/
theorem thinkInv_step (s : ThinkState) (e : ThinkEvent) (h : ThinkInv s) :
    ThinkInv (thinkStep s e) := by
  obtain ⟨hiff, hpw⟩ := h
  cases e with
  | enter ep g =>
    simp only [thinkStep]
    by_cases hp : s.processing g
    · rw [if_pos hp]
      exact ⟨hiff, hpw⟩
    · rw [if_neg hp]
      constructor
      · intro x
        by_cases hx : x = g
        · subst hx
          simp only [if_pos rfl, List.mem_cons]
          exact ⟨fun _ => ⟨(ep, x), Or.inl rfl, rfl⟩, fun _ => rfl⟩
        · simp only [if_neg hx, List.mem_cons]
          rw [hiff x]
          constructor
          · rintro ⟨pr, hpr, h2⟩
            exact ⟨pr, Or.inr hpr, h2⟩
          · rintro ⟨pr, hpr | hpr, h2⟩
            · exact absurd (show g = x from by rw [hpr] at h2; exact h2) (Ne.symm hx)
            · exact ⟨pr, hpr, h2⟩
      · rw [List.pairwise_cons]
        refine ⟨?_, hpw⟩
        intro pr hpr hEq
        exact hp ((hiff g).mpr ⟨pr, hpr, hEq.symm⟩)
  | leave ep g =>
    simp only [thinkStep]
    by_cases hmem : (ep, g) ∈ s.holders
    · rw [if_pos hmem]
      constructor
      · intro x
        constructor
        · intro hx
          have hx' : (if x = g then false else s.processing x) = true := hx
          show ∃ pr ∈ s.holders.filter (fun pr => decide (pr ≠ (ep, g))), pr.2 = x
          by_cases hxg : x = g
          · rw [if_pos hxg] at hx'
            exact absurd hx' (by simp)
          · rw [if_neg hxg] at hx'
            obtain ⟨pr, hpr, h2⟩ := (hiff x).mp hx'
            refine ⟨pr, ?_, h2⟩
            rw [List.mem_filter]
            refine ⟨hpr, ?_⟩
            simp only [decide_eq_true_eq]
            intro hEq
            exact hxg (by rw [← h2, hEq])
        · intro hex
          obtain ⟨pr, hpr, h2⟩ :=
            (show ∃ pr ∈ s.holders.filter (fun pr => decide (pr ≠ (ep, g))), pr.2 = x from hex)
          rw [List.mem_filter] at hpr
          obtain ⟨hprs, hne⟩ := hpr
          simp only [decide_eq_true_eq] at hne
          show (if x = g then false else s.processing x) = true
          by_cases hxg : x = g
          · exfalso
            subst hxg
            have hsymm : Symmetric (fun a b : Nat × Int => a.2 ≠ b.2) :=
              fun a b hab => fun he => hab he.symm
            exact List.Pairwise.forall hsymm hpw hprs hmem hne (by rw [h2])
          · rw [if_neg hxg]
            exact (hiff x).mpr ⟨pr, hprs, h2⟩
      · exact hpw.filter _
    · rw [if_neg hmem]
      exact ⟨hiff, hpw⟩

/-- The think-protocol invariant holds in every reachable state. -/
theorem thinkInv_run (es : List ThinkEvent) : ThinkInv (thinkRun es) := by
  suffices h : ∀ s, ThinkInv s → ThinkInv (es.foldl thinkStep s) from h initThink thinkInv_init
  induction es with
  | nil => exact fun s hs => hs
  | cons e rest ih => exact fun s hs => ih _ (thinkInv_step s e hs)

/-- C1: per-group think-episode serialization.  In every state reachable by
the `Agent.think` entry/exit protocol, no two in-flight episodes hold the
same group (at most one think episode per group at any time); an `enter` for
a group whose processing flag is set only records the invocation as aborted
— it admits no new holder, so the aborted invocation never reaches the LLM —
and an `enter` for a clear flag admits the invocation and sets the flag
(test-and-set on entry). -/
theorem think_per_group_serialization (es : List ThinkEvent) (ep : Nat) (g : Int) :
    ((thinkRun es).holders.Pairwise fun a b => a.2 ≠ b.2) ∧
    ((thinkRun es).processing g = true →
      thinkStep (thinkRun es) (ThinkEvent.enter ep g) =
        { thinkRun es with aborted := ep :: (thinkRun es).aborted }) ∧
    ((thinkRun es).processing g = false →
      (thinkStep (thinkRun es) (ThinkEvent.enter ep g)).holders =
          (ep, g) :: (thinkRun es).holders ∧
      (thinkStep (thinkRun es) (ThinkEvent.enter ep g)).processing g = true) := by
  refine ⟨(thinkInv_run es).2, ?_, ?_⟩
  · intro hp
    simp [thinkStep, hp]
  · intro hp
    constructor
    · simp [thinkStep, hp]
    · simp [thinkStep, hp]

/-- Concrete instance of think serialization: after episode 0 enters group 1,
a second enter for group 1 is recorded as aborted and changes nothing else. -/
theorem think_per_group_serialization_witness :
    (thinkRun [ThinkEvent.enter 0 1]).processing 1 = true ∧
    thinkStep (thinkRun [ThinkEvent.enter 0 1]) (ThinkEvent.enter 2 1) =
      { thinkRun [ThinkEvent.enter 0 1] with
        aborted := 2 :: (thinkRun [ThinkEvent.enter 0 1]).aborted } :=
  ⟨by decide, (think_per_group_serialization [ThinkEvent.enter 0 1] 2 1).2.1 (by decide)⟩

/-- The keyword ordering is transitive. -/
theorem memLE_trans (a b c : Memory) (hab : memLE a b = true) (hbc : memLE b c = true) :
    memLE a c = true := by
  simp only [memLE, Bool.or_eq_true, Bool.and_eq_true, decide_eq_true_eq] at *
  rcases hab with h | ⟨h1, h2⟩ <;> rcases hbc with g | ⟨g1, g2⟩
  · exact Or.inl (lt_trans g h)
  · exact Or.inl (g1 ▸ h)
  · exact Or.inl (h1 ▸ g)
  · exact Or.inr ⟨h1.trans g1, le_trans g2 h2⟩

/-- The keyword ordering is total. -/
theorem memLE_total (a b : Memory) : (memLE a b || memLE b a) = true := by
  simp only [memLE, Bool.or_eq_true, Bool.and_eq_true, decide_eq_true_eq]
  rcases lt_trichotomy a.Importance b.Importance with h | h | h
  · exact Or.inr (Or.inl h)
  · rcases le_total a.UpdatedAt b.UpdatedAt with hu | hu
    · exact Or.inr (Or.inr ⟨h.symm, hu⟩)
    · exact Or.inl (Or.inr ⟨h, hu⟩)
  · exact Or.inl (Or.inl h)

/-- C6: whenever the vector path is unavailable (`none`) or yields no
results (`some []`), `QueryMemory` returns rows of the table matching the
keyword predicate (group filter when the group is non-zero, type filter when
the type is non-empty, and at least one whitespace token of the query
occurring in the content), ordered by importance descending then updated-at
descending, with at most `limit` items — and it returns every matching row
whenever at most `limit` rows match. -/
theorem queryMemory_keyword_fallback (vectorResults : Option (List Memory))
    (table : List Memory) (query : String) (groupID : Int) (memType : String) (limit : Int)
    (hvec : vectorResults = none ∨ vectorResults = some []) (hlim : 0 ≤ limit) :
    (QueryMemory vectorResults table query groupID memType limit).length ≤ limit.toNat ∧
    (∀ m ∈ QueryMemory vectorResults table query groupID memType limit,
      m ∈ table ∧ memKeywordPred query groupID memType m = true) ∧
    (QueryMemory vectorResults table query groupID memType limit).Sorted
      (fun a b => memLE a b = true) ∧
    ((table.filter (memKeywordPred query groupID memType)).length ≤ limit.toNat →
      ∀ m ∈ table, memKeywordPred query groupID memType m = true →
        m ∈ QueryMemory vectorResults table query groupID memType limit) := by
  have hQ : QueryMemory vectorResults table query groupID memType limit =
      queryMemoryKeyword table query groupID memType limit := by
    rcases hvec with h | h <;> simp [QueryMemory, h]
  rw [hQ]
  by_cases hkw : (stringFields query).isEmpty
  · have hpred : ∀ m, memKeywordPred query groupID memType m = false := by
      intro m
      simp [memKeywordPred, List.isEmpty_iff.mp hkw]
    have hR : queryMemoryKeyword table query groupID memType limit = [] := by
      simp [queryMemoryKeyword, hkw]
    rw [hR]
    refine ⟨by simp, by simp, List.sorted_nil, ?_⟩
    intro _ m _ hm
    rw [hpred m] at hm
    exact absurd hm (by simp)
  · have hR : queryMemoryKeyword table query groupID memType limit =
        ((table.filter (memKeywordPred query groupID memType)).mergeSort memLE).take
          limit.toNat := by
      simp [queryMemoryKeyword, hkw, not_lt.mpr hlim]
    rw [hR]
    set L := (table.filter (memKeywordPred query groupID memType)).mergeSort memLE with hL
    have hperm : L.Perm (table.filter (memKeywordPred query groupID memType)) :=
      List.mergeSort_perm _ _
    refine ⟨?_, ?_, ?_, ?_⟩
    · rw [List.length_take]
      exact min_le_left _ _
    · intro m hm
      have : m ∈ table.filter (memKeywordPred query groupID memType) :=
        hperm.mem_iff.mp (List.take_subset _ _ hm)
      exact List.mem_filter.mp this
    · exact List.Pairwise.sublist (List.take_sublist _ _)
        (List.sorted_mergeSort memLE_trans memLE_total
          (table.filter (memKeywordPred query groupID memType)))
    · intro hlen m hmt hmp
      have hLlen : L.length ≤ limit.toNat := by
        rw [hperm.length_eq]
        exact hlen
      rw [List.take_of_length_le hLlen]
      exact hperm.mem_iff.mpr (List.mem_filter.mpr ⟨hmt, hmp⟩)

/-- Concrete instance of the keyword fallback contract with the vector index
offline, a one-row table and query token shared with the row content. -/
theorem queryMemory_keyword_fallback_witness :
    (QueryMemory none [⟨1, "group_fact", 1, 0, "the cat sat", 1/2, 10, 0⟩]
        "cat" 1 "" 5).length ≤ (5 : Int).toNat ∧
    (∀ m ∈ QueryMemory none [⟨1, "group_fact", 1, 0, "the cat sat", 1/2, 10, 0⟩]
        "cat" 1 "" 5,
      m ∈ [⟨1, "group_fact", 1, 0, "the cat sat", 1/2, 10, 0⟩] ∧
      memKeywordPred "cat" 1 "" m = true) ∧
    (QueryMemory none [⟨1, "group_fact", 1, 0, "the cat sat", 1/2, 10, 0⟩]
        "cat" 1 "" 5).Sorted (fun a b => memLE a b = true) ∧
    (([⟨1, "group_fact", 1, 0, "the cat sat", 1/2, 10, 0⟩].filter
        (memKeywordPred "cat" 1 "")).length ≤ (5 : Int).toNat →
      ∀ m ∈ [⟨1, "group_fact", 1, 0, "the cat sat", 1/2, 10, 0⟩],
        memKeywordPred "cat" 1 "" m = true →
          m ∈ QueryMemory none [⟨1, "group_fact", 1, 0, "the cat sat", 1/2, 10, 0⟩]
              "cat" 1 "" 5) :=
  queryMemory_keyword_fallback none [⟨1, "group_fact", 1, 0, "the cat sat", 1/2, 10, 0⟩]
    "cat" 1 "" 5 (Or.inl rfl) (by norm_num)

/-- A fresh buffer satisfies the invariant for the empty push history, and
its capacity is positive. -/
theorem ringBuffer_inv_new (α : Type) [Inhabited α] (capacity : Int) :
    (NewRingBuffer α capacity).Inv [] ∧ 0 < (NewRingBuffer α capacity).cap := by
  constructor
  · unfold RingBuffer.Inv NewRingBuffer
    refine ⟨by simp, by simp, by simp, ?_⟩
    intro i hi
    simp at hi
  · have hc : (NewRingBuffer α capacity).cap = if capacity ≤ 0 then 64 else capacity.toNat := rfl
    rw [hc]
    split_ifs with h <;> omega

/-- One `Push` preserves the invariant, extending the push history, and
leaves the capacity unchanged. -/
theorem ringBuffer_inv_push {α : Type} [Inhabited α] (rb : RingBuffer α) (xs : List α) (x : α)
    (hcap : 0 < rb.cap) (h : rb.Inv xs) :
    (rb.Push x).Inv (xs ++ [x]) ∧ (rb.Push x).cap = rb.cap := by
  obtain ⟨hcount, hhead, htail, hdata⟩ := h
  by_cases hlt : rb.count < rb.cap
  · have hn : xs.length < rb.cap := by omega
    have hcnt : rb.count = xs.length := by omega
    have hhead0 : rb.head = 0 := by
      rw [hhead, hcnt]
      simp
    have htailn : rb.tail = xs.length := by
      rw [htail, Nat.mod_eq_of_lt hn]
    constructor
    · unfold RingBuffer.Inv
      simp only [RingBuffer.Push, hlt, if_true, List.length_append, List.length_singleton]
      refine ⟨by omega, ?_, ?_, ?_⟩
      · rw [show xs.length + 1 - (rb.count + 1) = 0 from by omega, Nat.zero_mod]
        exact hhead0
      · rw [htailn]
      · intro i hi
        have hic : i < rb.cap := by omega
        have hmod : (rb.head + i) % rb.cap = i := by
          rw [hhead0, Nat.zero_add]
          exact Nat.mod_eq_of_lt hic
        rw [hmod, show xs.length + 1 - (rb.count + 1) + i = i from by omega]
        by_cases hieq : i = xs.length
        · rw [if_pos (by rw [htailn, hieq]), hieq]
          simp [List.getD, List.getElem?_append_right]
        · rw [if_neg (by rw [htailn]; exact hieq)]
          have hold := hdata i (by omega)
          rw [hmod, show xs.length - rb.count + i = i from by omega] at hold
          rw [List.getD_append _ _ _ i (by omega)]
          exact hold
    · simp only [RingBuffer.Push, hlt, if_true]
  · have hcn : rb.count = rb.cap := by omega
    have hcle : rb.cap ≤ xs.length := by omega
    have hheadd : rb.head = (xs.length - rb.cap) % rb.cap := by rw [hhead, hcn]
    have htail_eq : rb.tail = (xs.length - rb.cap) % rb.cap := by
      rw [htail]
      conv_lhs => rw [← Nat.sub_add_cancel hcle]
      rw [Nat.add_mod_right]
    constructor
    · unfold RingBuffer.Inv
      simp only [RingBuffer.Push, hlt, if_false, List.length_append, List.length_singleton]
      refine ⟨by omega, ?_, ?_, ?_⟩
      · rw [hheadd, Nat.mod_add_mod]
        congr 1
        omega
      · rw [htail, Nat.mod_add_mod]
      · intro i hi
        have hic : i < rb.cap := by omega
        have hidx : ((rb.head + 1) % rb.cap + i) % rb.cap =
            (xs.length - rb.cap + (1 + i)) % rb.cap := by
          rw [Nat.mod_add_mod, hheadd, Nat.add_assoc, Nat.mod_add_mod]
        by_cases hlast : i = rb.cap - 1
        · have hidx2 : ((rb.head + 1) % rb.cap + i) % rb.cap = rb.tail := by
            rw [hidx, hlast, show 1 + (rb.cap - 1) = rb.cap from by omega,
              Nat.add_mod_right, htail_eq]
          rw [hidx2, if_pos rfl,
            show xs.length + 1 - rb.count + i = xs.length from by omega]
          simp [List.getD, List.getElem?_append_right]
        · have hne : ((rb.head + 1) % rb.cap + i) % rb.cap ≠ rb.tail := by
            rw [hidx, htail_eq]
            intro hEq
            have hmodeq : (xs.length - rb.cap) ≡ (xs.length - rb.cap + (1 + i))
                [MOD rb.cap] := by
              unfold Nat.ModEq
              exact hEq.symm
            have hdvd := (Nat.modEq_iff_dvd' (Nat.le_add_right _ _)).mp hmodeq
            rw [show xs.length - rb.cap + (1 + i) - (xs.length - rb.cap) = 1 + i
              from by omega] at hdvd
            have := Nat.le_of_dvd (by omega) hdvd
            omega
          rw [if_neg hne]
          have hold := hdata (i + 1) (by omega)
          have hidx3 : (rb.head + (i + 1)) % rb.cap =
              ((rb.head + 1) % rb.cap + i) % rb.cap := by
            rw [hidx, hheadd, Nat.mod_add_mod]
            congr 1
            omega
          rw [← hidx3, hold, List.getD_append _ _ _ _ (by omega),
            List.getD_eq_getElem _ _ (by omega), List.getD_eq_getElem _ _ (by omega)]
          congr 1
          omega
    · simp only [RingBuffer.Push, hlt, if_false]

/-- A whole sequence of pushes preserves the invariant and the capacity. -/
theorem ringBuffer_inv_pushAll {α : Type} [Inhabited α] (xs : List α) (rb : RingBuffer α)
    (ys : List α) (hcap : 0 < rb.cap) (h : rb.Inv ys) :
    (rb.pushAll xs).Inv (ys ++ xs) ∧ (rb.pushAll xs).cap = rb.cap := by
  induction xs generalizing rb ys with
  | nil =>
    rw [List.append_nil]
    exact ⟨h, rfl⟩
  | cons x rest ih =>
    have hstep := ringBuffer_inv_push rb ys x hcap h
    have hcap' : 0 < (rb.Push x).cap := by rw [hstep.2]; exact hcap
    have hrest := ih (rb.Push x) (ys ++ [x]) hcap' hstep.1
    have hassoc : (ys ++ [x]) ++ rest = ys ++ (x :: rest) := by simp
    rw [hassoc] at hrest
    have hpush : rb.pushAll (x :: rest) = (rb.Push x).pushAll rest := rfl
    rw [hpush]
    exact ⟨hrest.1, hrest.2.trans hstep.2⟩

/-- The invariant determines `GetAll`: it returns the last `cap` pushed
values, oldest first. -/
theorem ringBuffer_getAll_inv {α : Type} [Inhabited α] (rb : RingBuffer α) (xs : List α)
    (hcap : 0 < rb.cap) (h : rb.Inv xs) :
    rb.GetAll = xs.drop (xs.length - rb.cap) := by
  obtain ⟨hcount, hhead, htail, hdata⟩ := h
  by_cases hc0 : rb.count = 0
  · have hn0 : xs.length = 0 := by omega
    rw [List.length_eq_zero.mp hn0]
    simp [RingBuffer.GetAll, hc0]
  · have hgetall : rb.GetAll =
        (List.range rb.count).map fun i => rb.data ((rb.head + i) % rb.cap) := by
      simp [RingBuffer.GetAll, hc0]
    rw [hgetall]
    apply List.ext_getElem
    · simp only [List.length_map, List.length_range, List.length_drop]
      omega
    · intro i h1 h2
      simp only [List.length_map, List.length_range] at h1
      rw [List.getElem_map, List.getElem_range, hdata i h1, List.getElem_drop,
        List.getD_eq_getElem _ _ (by omega)]
      congr 1
      omega

/-- C2: for every capacity request and every sequence of pushed values, a
ring buffer built by `NewRingBuffer` and fed through `Push` answers `GetAll`
with exactly the last `cap` pushed values in push order (all of them while
fewer than `cap` have been pushed), hence at most `cap` items ordered
oldest-to-newest, where `cap` is the requested capacity (or the default 64
for non-positive requests). -/
theorem ringBuffer_bounded_fifo (α : Type) [Inhabited α] (capacity : Int) (xs : List α) :
    ((NewRingBuffer α capacity).pushAll xs).GetAll =
      xs.drop (xs.length - ((NewRingBuffer α capacity).pushAll xs).cap) ∧
    ((NewRingBuffer α capacity).pushAll xs).GetAll.length ≤
      ((NewRingBuffer α capacity).pushAll xs).cap ∧
    ((NewRingBuffer α capacity).pushAll xs).cap =
      (if capacity ≤ 0 then 64 else capacity.toNat) := by
  obtain ⟨hinv0, hcap0⟩ := ringBuffer_inv_new α capacity
  obtain ⟨hinv, hcapeq⟩ := ringBuffer_inv_pushAll xs (NewRingBuffer α capacity) [] hcap0 hinv0
  rw [List.nil_append] at hinv
  have hcap' : 0 < ((NewRingBuffer α capacity).pushAll xs).cap := by
    rw [hcapeq]
    exact hcap0
  have hget := ringBuffer_getAll_inv _ xs hcap' hinv
  refine ⟨hget, ?_, ?_⟩
  · rw [hget]
    simp only [List.length_drop]
    omega
  · rw [hcapeq]
    rfl
